import Mathlib

/-!
Verification of the assembly-and-merge engine of the nutils repository:
the two-pass offset planner of `Sample.integrate_sparse` (`nutils/sample.py`),
the `Integral` algebra (`nutils/sample.py`), the final materialization
`_convert`, the batched `eval_integrals_sparse`, and the coordinate-sparse
merge algebra of the `nutils.sparse` module (whose source is not part of the
sources; those operations are modelled from the specification and checked
against the concrete vectors of `tests/test_sparse.py`).

Machine integers (numpy `uint64` counters) are modelled as natural numbers
reduced modulo `2 ^ 64`; code that raises is modelled in `Except`.
-/

namespace NutilsModel

/-- width bound of the numpy `uint64` counters used by the offset planner -/
def U64 : ℕ := 2 ^ 64

/-! ## Offset planner (`Sample.integrate_sparse`, `nutils/sample.py` 189-215)

The planner builds an `nblocks × (nelems+1)` table of `uint64` counts.
First pass (lines 191-195): column 0 is left zero, and for each element
`ielem` one evaluation of the stacked size function (one entry per block)
fills column `ielem+1` of every block row.  Second pass (lines 202-209):
per block row, column 0 is set to the owning function's running total,
the row is accumulated in place by `numpy.cumsum`, a decrease between
adjacent entries raises `Exception('integer overflow')`, and the running
total advances to the row's last entry.  Shared buffers (line 215) are
allocated only after the whole second pass succeeded. -/

/-- one evaluation of the evaluable size expression: which elements it was
evaluated at and which blocks' sizes the single call produced -/
structure EvalCall where
  elems : List ℕ
  blocks : List ℕ
deriving DecidableEq

/-- first pass of the planner (lines 191-195): the count table (column 0
reserved as zero, column `e+1` holding block `b`'s size for element `e`,
cast into `uint64`), together with the trace of size evaluations the code
performs: one stacked evaluation covering all blocks, per element -/
def firstPass (sizes : ℕ → ℕ → ℕ) (nblocks nelems : ℕ) :
    List (List ℕ) × List EvalCall :=
  ((List.range nblocks).map fun b => 0 :: (List.range nelems).map fun e => sizes b e % U64,
   if nblocks = 0 then [] else (List.range nelems).map fun e => ⟨[e], List.range nblocks⟩)

/-- the evaluation schedule in the words of the spec (§4.3 step 1): once per
block, a single combined evaluation across all elements; stated only to be
compared with the schedule `firstPass` extracts from the code -/
def claimedSizeCalls (nblocks nelems : ℕ) : List EvalCall :=
  (List.range nblocks).map fun b => ⟨List.range nelems, [b]⟩

/-- in-place `numpy.cumsum` on a `uint64` row: every partial sum is stored
reduced modulo `2 ^ 64` -/
def cumsumMod : ℕ → List ℕ → List ℕ
  | _, [] => []
  | acc, x :: xs => (acc + x) % U64 :: cumsumMod ((acc + x) % U64) xs

/-- the same accumulation over unbounded naturals (the mathematical prefix
sum, used to express that the counts never wrap) -/
def cumsumNat : ℕ → List ℕ → List ℕ
  | _, [] => []
  | acc, x :: xs => (acc + x) :: cumsumNat (acc + x) xs

/-- helper for the overflow test: does the list ever drop below the value
seen just before it? -/
def rowDecreasesFrom : ℕ → List ℕ → Bool
  | _, [] => false
  | prev, x :: xs => decide (x < prev) || rowDecreasesFrom x xs

/-- the overflow test `(v[1:] < v[:-1]).any()` of line 207: some adjacent
pair of the accumulated row decreases -/
def rowDecreases : List ℕ → Bool
  | [] => false
  | x :: xs => rowDecreasesFrom x xs

/-- last element of a list, or the default for an empty list (`v[-1]`) -/
def lastD : List ℕ → ℕ → ℕ
  | [], d => d
  | x :: xs, _ => lastD xs x

/-- second pass of the planner (lines 202-209): per block row, set column 0
to the owning function's running total (`v[0] = nvals[ifunc]`), accumulate
in place, raise on a decreasing step, and advance the running total to the
row's last entry.  Each list entry of `block2func` is the owning function
of one block, in block order. -/
def secondPass : List ℕ → List (List ℕ) → List ℕ → Except String (List (List ℕ) × List ℕ)
  | [], _, nvals => .ok ([], nvals)
  | ifunc :: bfs, table, nvals =>
    let start := nvals.getD ifunc 0
    let row := cumsumMod 0 (start :: (table.headD []).drop 1)
    if rowDecreases row then .error "integer overflow"
    else
      match secondPass bfs (table.drop 1) (nvals.set ifunc (lastD row 0)) with
      | .error e => .error e
      | .ok (rows, nv) => .ok (row :: rows, nv)

/-- the rows and running totals the second pass computes, with the overflow
check stripped; the check never changes a value, so `secondPass` either
returns exactly this or aborts -/
def secondPassNC : List ℕ → List (List ℕ) → List ℕ → List (List ℕ) × List ℕ
  | [], _, nvals => ([], nvals)
  | ifunc :: bfs, table, nvals =>
    let start := nvals.getD ifunc 0
    let row := cumsumMod 0 (start :: (table.headD []).drop 1)
    let p := secondPassNC bfs (table.drop 1) (nvals.set ifunc (lastD row 0))
    (row :: p.1, p.2)

/-- the second pass over unbounded naturals: the true cumulative counts,
against which wrapping is defined -/
def secondPassNat : List ℕ → List (List ℕ) → List ℕ → List (List ℕ) × List ℕ
  | [], _, nvals => ([], nvals)
  | ifunc :: bfs, table, nvals =>
    let start := nvals.getD ifunc 0
    let row := cumsumNat 0 (start :: (table.headD []).drop 1)
    let p := secondPassNat bfs (table.drop 1) (nvals.set ifunc (lastD row 0))
    (row :: p.1, p.2)

/-- the count table over unbounded naturals (no `uint64` cast) -/
def rawTable (sizes : ℕ → ℕ → ℕ) (nblocks nelems : ℕ) : List (List ℕ) :=
  (List.range nblocks).map fun b => 0 :: (List.range nelems).map fun e => sizes b e

/-- offset planning of `Sample.integrate_sparse`: first pass builds the
count table, second pass turns it into offsets or raises -/
def planOffsets (block2func : List ℕ) (sizes : ℕ → ℕ → ℕ) (nelems nfuncs : ℕ) :
    Except String (List (List ℕ) × List ℕ) :=
  secondPass block2func (firstPass sizes block2func.length nelems).1 (List.replicate nfuncs 0)

/-- planning followed by buffer allocation (line 215): one shared buffer per
function, sized by its final running total; an error means planning aborted
and no buffer was ever allocated, mirroring that line 215 runs strictly
after the overflow check -/
def integrateSparseBuffers (block2func : List ℕ) (sizes : ℕ → ℕ → ℕ) (nelems nfuncs : ℕ) :
    Except String (List ℕ) :=
  match planOffsets block2func sizes nelems nfuncs with
  | .error e => .error e
  | .ok (_, nvals) => .ok nvals

/-- the full offset table as the check-free second pass computes it -/
def planTableNC (block2func : List ℕ) (sizes : ℕ → ℕ → ℕ) (nelems nfuncs : ℕ) :
    List (List ℕ) :=
  (secondPassNC block2func (firstPass sizes block2func.length nelems).1
    (List.replicate nfuncs 0)).1

/-- the input's cumulative counts never wrap: every true (unbounded) running
total of the whole plan stays below `2 ^ 64` -/
def NoWrap (block2func : List ℕ) (sizes : ℕ → ℕ → ℕ) (nelems nfuncs : ℕ) : Prop :=
  ∀ row ∈ (secondPassNat block2func (rawTable sizes block2func.length nelems)
      (List.replicate nfuncs 0)).1,
    ∀ x ∈ row, x < U64

/-! ### Properties of the planner -/

/-- the overflow check of the second pass never changes a value: the pass
either aborts with the overflow exception or returns the check-free result -/
lemma secondPass_eq (bfs : List ℕ) : ∀ (table : List (List ℕ)) (nvals : List ℕ),
    secondPass bfs table nvals =
      if (secondPassNC bfs table nvals).1.any rowDecreases then .error "integer overflow"
      else .ok (secondPassNC bfs table nvals) := by
  induction bfs with
  | nil => intro table nvals; rfl
  | cons ifunc bfs ih =>
    intro table nvals
    simp only [secondPass, secondPassNC]
    set row := cumsumMod 0 (nvals.getD ifunc 0 :: (table.headD []).drop 1) with hrowdef
    set rest := secondPassNC bfs (table.drop 1) (nvals.set ifunc (lastD row 0)) with hrestdef
    by_cases h : rowDecreases row = true
    · rw [if_pos h, List.any_cons, h, Bool.true_or, if_pos rfl]
    · have hf : rowDecreases row = false := by simpa using h
      rw [if_neg h, ih, List.any_cons, hf, Bool.false_or]
      by_cases h2 : rest.1.any rowDecreases = true
      · rw [if_pos h2, if_pos h2]
      · rw [if_neg h2, if_neg h2]

/-- if every true partial sum stays below `2 ^ 64`, the `uint64` accumulation
computes exactly the true prefix sums -/
lemma cumsumMod_eq_cumsumNat (xs : List ℕ) : ∀ acc : ℕ,
    (∀ y ∈ cumsumNat acc xs, y < U64) →
    cumsumMod acc (xs.map fun x => x % U64) = cumsumNat acc xs := by
  induction xs with
  | nil => intro acc _; rfl
  | cons x xs ih =>
    intro acc h
    have hx : acc + x < U64 := h (acc + x) (by simp [cumsumNat])
    have hxm : x % U64 = x := Nat.mod_eq_of_lt (by omega)
    have hsm : (acc + x) % U64 = acc + x := Nat.mod_eq_of_lt hx
    simp only [List.map_cons, cumsumMod, cumsumNat, hxm, hsm]
    rw [ih (acc + x) (fun y hy => h y (by simp [cumsumNat, hy]))]

/-- a true prefix sum never decreases below its running accumulator -/
lemma rowDecreasesFrom_cumsumNat (xs : List ℕ) : ∀ acc : ℕ,
    rowDecreasesFrom acc (cumsumNat acc xs) = false := by
  induction xs with
  | nil => intro acc; rfl
  | cons x xs ih =>
    intro acc
    have hlt : ¬ acc + x < acc := by omega
    simp only [cumsumNat, rowDecreasesFrom, ih (acc + x), Bool.or_false,
      decide_eq_false_iff_not]
    exact hlt

/-- the true prefix sums of a row never have a decreasing step -/
lemma rowDecreases_cumsumNat (acc : ℕ) (l : List ℕ) :
    rowDecreases (cumsumNat acc l) = false := by
  cases l with
  | nil => rfl
  | cons x xs =>
    simp only [cumsumNat, rowDecreases]
    exact rowDecreasesFrom_cumsumNat xs (acc + x)

/-- the default-carrying last element of a nonempty list is an element -/
lemma lastD_mem (l : List ℕ) : ∀ d : ℕ, l ≠ [] → lastD l d ∈ l := by
  induction l with
  | nil => intro d h; exact absurd rfl h
  | cons x xs ih =>
    intro d _
    cases hxs : xs with
    | nil => subst hxs; simp [lastD]
    | cons y ys =>
      subst hxs
      exact List.mem_cons_of_mem x (ih x (by simp))

/-- a list default read at an in-or-out-of-range index is an element or the
default -/
lemma getD_mem_or (l : List ℕ) : ∀ i d : ℕ, l.getD i d ∈ l ∨ l.getD i d = d := by
  induction l with
  | nil => intro i d; right; simp
  | cons x xs ih =>
    intro i d
    cases i with
    | zero => left; simp
    | succ n =>
      rcases ih n d with h | h
      · left
        rw [List.getD_cons_succ]
        exact List.mem_cons_of_mem x h
      · right
        rw [List.getD_cons_succ]
        exact h

/-- every row of the true second pass is a prefix-sum row -/
lemma secondPassNat_rows_form (bfs : List ℕ) : ∀ (table : List (List ℕ)) (nvals : List ℕ),
    ∀ row ∈ (secondPassNat bfs table nvals).1, ∃ l, row = cumsumNat 0 l := by
  induction bfs with
  | nil => intro table nvals row h; simp [secondPassNat] at h
  | cons ifunc bfs ih =>
    intro table nvals row h
    simp only [secondPassNat, List.mem_cons] at h
    rcases h with h | h
    · exact ⟨_, h⟩
    · exact ih _ _ row h

/-- when the true cumulative counts of the whole plan stay below `2 ^ 64`,
the `uint64` second pass computes exactly the true pass -/
lemma secondPassNC_eq_nat (bfs : List ℕ) : ∀ (tableRaw : List (List ℕ)) (nvals : List ℕ),
    (∀ row ∈ (secondPassNat bfs tableRaw nvals).1, ∀ x ∈ row, x < U64) →
    (∀ v ∈ nvals, v < U64) →
    secondPassNC bfs (tableRaw.map fun r => r.headD 0 :: (r.drop 1).map fun x => x % U64) nvals
      = secondPassNat bfs tableRaw nvals := by
  induction bfs with
  | nil => intro tableRaw nvals _ _; rfl
  | cons ifunc bfs ih =>
    intro tableRaw nvals hbound hnv
    have hU : 0 < U64 := by simp [U64]
    have hstart : nvals.getD ifunc 0 < U64 := by
      rcases getD_mem_or nvals ifunc 0 with h | h
      · exact hnv _ h
      · rw [h]; exact hU
    have hhead : ((tableRaw.map fun r => r.headD 0 :: (r.drop 1).map fun x => x % U64).headD
        []).drop 1 = ((tableRaw.headD []).drop 1).map fun x => x % U64 := by
      cases tableRaw <;> simp
    have hrowb : ∀ y ∈ cumsumNat 0 (nvals.getD ifunc 0 :: (tableRaw.headD []).drop 1),
        y < U64 := by
      intro y hy
      exact hbound _ (by simp [secondPassNat]) y hy
    have hrow : cumsumMod 0 (nvals.getD ifunc 0 :: ((tableRaw.headD []).drop 1).map
        fun x => x % U64) = cumsumNat 0 (nvals.getD ifunc 0 :: (tableRaw.headD []).drop 1) := by
      have h2 := cumsumMod_eq_cumsumNat (nvals.getD ifunc 0 :: (tableRaw.headD []).drop 1) 0 hrowb
      rw [List.map_cons, Nat.mod_eq_of_lt hstart] at h2
      exact h2
    have hlast : lastD (cumsumNat 0 (nvals.getD ifunc 0 :: (tableRaw.headD []).drop 1)) 0
        < U64 := by
      refine hrowb _ (lastD_mem _ 0 ?_)
      simp [cumsumNat]
    have hnv2 : ∀ v ∈ nvals.set ifunc
        (lastD (cumsumNat 0 (nvals.getD ifunc 0 :: (tableRaw.headD []).drop 1)) 0), v < U64 := by
      intro v hv
      rcases List.mem_or_eq_of_mem_set hv with h | h
      · exact hnv v h
      · rw [h]; exact hlast
    have hbound2 : ∀ row ∈ (secondPassNat bfs (tableRaw.drop 1) (nvals.set ifunc
        (lastD (cumsumNat 0 (nvals.getD ifunc 0 :: (tableRaw.headD []).drop 1)) 0))).1,
        ∀ x ∈ row, x < U64 := by
      intro row hrow
      refine hbound row ?_
      simp only [secondPassNat, List.mem_cons]
      exact Or.inr hrow
    have hdrop : (tableRaw.map fun r => r.headD 0 :: (r.drop 1).map fun x => x % U64).drop 1
        = (tableRaw.drop 1).map fun r => r.headD 0 :: (r.drop 1).map fun x => x % U64 := by
      cases tableRaw <;> simp
    simp only [secondPassNC, secondPassNat, hhead, hrow, hdrop]
    rw [ih _ _ hbound2 hnv2]

/-- the first-pass table is the raw count table with every size cast into
`uint64` -/
lemma firstPass_table_eq_map (sizes : ℕ → ℕ → ℕ) (nblocks nelems : ℕ) :
    (firstPass sizes nblocks nelems).1
      = (rawTable sizes nblocks nelems).map fun r => r.headD 0 :: (r.drop 1).map
          fun x => x % U64 := by
  simp only [firstPass, rawTable, List.map_map]
  exact List.map_congr_left fun b _ => by simp [Function.comp]

/-- under a never-wrapping input the planner succeeds and returns the true
offsets -/
lemma planOffsets_of_noWrap (b2f : List ℕ) (sizes : ℕ → ℕ → ℕ) (nelems nfuncs : ℕ)
    (h : NoWrap b2f sizes nelems nfuncs) :
    planOffsets b2f sizes nelems nfuncs
      = .ok (secondPassNat b2f (rawTable sizes b2f.length nelems)
          (List.replicate nfuncs 0)) := by
  have hU : 0 < U64 := by simp [U64]
  have hnv0 : ∀ v ∈ List.replicate nfuncs (0 : ℕ), v < U64 := by
    intro v hv
    rw [List.eq_of_mem_replicate hv]
    exact hU
  unfold planOffsets
  rw [secondPass_eq, firstPass_table_eq_map, secondPassNC_eq_nat _ _ _ h hnv0]
  have hfalse : (secondPassNat b2f (rawTable sizes b2f.length nelems)
      (List.replicate nfuncs 0)).1.any rowDecreases = false := by
    rw [List.any_eq_false]
    intro row hrow
    obtain ⟨l, hl⟩ := secondPassNat_rows_form b2f _ _ row hrow
    rw [hl, rowDecreases_cumsumNat]
    simp
  rw [hfalse]
  simp

/-- rows surviving the second pass never have a decreasing step -/
lemma planOffsets_ok_rows (b2f : List ℕ) (sizes : ℕ → ℕ → ℕ) (nelems nfuncs : ℕ)
    (rows : List (List ℕ)) (nvals : List ℕ)
    (h : planOffsets b2f sizes nelems nfuncs = .ok (rows, nvals)) :
    ∀ row ∈ rows, rowDecreases row = false := by
  unfold planOffsets at h
  rw [secondPass_eq] at h
  by_cases hc : (secondPassNC b2f (firstPass sizes b2f.length nelems).1
      (List.replicate nfuncs 0)).1.any rowDecreases = true
  · rw [if_pos hc] at h
    exact absurd h (by simp)
  · rw [if_neg hc] at h
    have hpair := Except.ok.inj h
    have hrows : rows = (secondPassNC b2f (firstPass sizes b2f.length nelems).1
        (List.replicate nfuncs 0)).1 := (congrArg Prod.fst hpair).symm
    intro row hrow
    rw [hrows] at hrow
    have hcf : (secondPassNC b2f (firstPass sizes b2f.length nelems).1
        (List.replicate nfuncs 0)).1.any rowDecreases = false := by simpa using hc
    simpa using List.any_eq_false.mp hcf row hrow

/-- a list with no decreasing step dominates its starting bound everywhere -/
lemma rowDecFrom_le (xs : List ℕ) : ∀ prev : ℕ, rowDecreasesFrom prev xs = false →
    ∀ j, j < xs.length → prev ≤ xs.getD j 0 := by
  induction xs with
  | nil => intro prev _ j hj; simp at hj
  | cons x xs ih =>
    intro prev h j hj
    simp only [rowDecreasesFrom, Bool.or_eq_false_iff, decide_eq_false_iff_not] at h
    obtain ⟨h1, h2⟩ := h
    have hpx : prev ≤ x := by omega
    cases j with
    | zero => simpa using hpx
    | succ k =>
      have := ih x h2 k (by simpa using hj)
      calc prev ≤ x := hpx
        _ ≤ xs.getD k 0 := this

/-- a tail with no decreasing step is monotone in its reads -/
lemma noDecFrom_getD_mono (xs : List ℕ) : ∀ prev : ℕ, rowDecreasesFrom prev xs = false →
    ∀ i j, i ≤ j → j < xs.length → xs.getD i 0 ≤ xs.getD j 0 := by
  induction xs with
  | nil => intro prev _ i j _ hj; simp at hj
  | cons x xs ih =>
    intro prev h i j hij hj
    simp only [rowDecreasesFrom, Bool.or_eq_false_iff, decide_eq_false_iff_not] at h
    obtain ⟨h1, h2⟩ := h
    cases i with
    | zero =>
      cases j with
      | zero => exact le_refl _
      | succ k =>
        simpa using rowDecFrom_le xs x h2 k (by simpa using hj)
    | succ i' =>
      cases j with
      | zero => omega
      | succ j' =>
        simpa using ih x h2 i' j' (by omega) (by simpa using hj)

/-- a row that passed the overflow check is non-decreasing in its reads -/
lemma noDec_getD_mono (l : List ℕ) (h : rowDecreases l = false) :
    ∀ i j, i ≤ j → j < l.length → l.getD i 0 ≤ l.getD j 0 := by
  cases l with
  | nil => intro i j _ hj; simp at hj
  | cons x xs =>
    intro i j hij hj
    simp only [rowDecreases] at h
    cases i with
    | zero =>
      cases j with
      | zero => exact le_refl _
      | succ k => simpa using rowDecFrom_le xs x h k (by simpa using hj)
    | succ i' =>
      cases j with
      | zero => omega
      | succ j' => simpa using noDecFrom_getD_mono xs x h i' j' (by omega) (by simpa using hj)

/-! ### Claims about the offset planner -/

/-- C1: during offset planning in `Sample.integrate_sparse`, if the inclusive
prefix sum over any block row ever decreases at a step (uint64 counter
wraparound), the call raises the `integer overflow` exception, and no shared
output buffer is produced (allocation, line 215, runs strictly after the
check); for every input whose true cumulative counts never wrap past
`2 ^ 64`, no such exception is raised and the buffers are allocated. -/
theorem integrate_sparse_overflow_C1 (block2func : List ℕ) (sizes : ℕ → ℕ → ℕ)
    (nelems nfuncs : ℕ) :
    ((planTableNC block2func sizes nelems nfuncs).any rowDecreases = true →
      integrateSparseBuffers block2func sizes nelems nfuncs = .error "integer overflow") ∧
    (NoWrap block2func sizes nelems nfuncs →
      ∃ bufs, integrateSparseBuffers block2func sizes nelems nfuncs = .ok bufs) := by
  constructor
  · intro h
    unfold integrateSparseBuffers planOffsets
    rw [secondPass_eq]
    have h2 : (secondPassNC block2func (firstPass sizes block2func.length nelems).1
        (List.replicate nfuncs 0)).1.any rowDecreases = true := h
    rw [h2, if_pos rfl]
  · intro h
    unfold integrateSparseBuffers
    rw [planOffsets_of_noWrap _ _ _ _ h]
    exact ⟨_, rfl⟩

/-- witness for C1: a one-block plan whose second element wraps the uint64
counter aborts with the overflow error, and a small plan is accepted -/
theorem integrate_sparse_overflow_C1_witness :
    integrateSparseBuffers [0] (fun _ e => if e = 0 then U64 - 1 else 1) 2 1
        = .error "integer overflow" ∧
    ∃ bufs, integrateSparseBuffers [0] (fun _ _ => 1) 2 1 = .ok bufs :=
  ⟨(integrate_sparse_overflow_C1 [0] (fun _ e => if e = 0 then U64 - 1 else 1) 2 1).1
      (by decide),
   (integrate_sparse_overflow_C1 [0] (fun _ _ => 1) 2 1).2 (by unfold NoWrap; decide)⟩

/-- C2: whenever offset planning completes without the overflow exception,
every block row of the offset table is non-decreasing along the element
axis, and therefore the half-open output ranges
`[offsets[block][e], offsets[block][e+1])` of distinct elements of one block
are pairwise disjoint. -/
theorem offsets_monotone_disjoint_C2 (block2func : List ℕ) (sizes : ℕ → ℕ → ℕ)
    (nelems nfuncs : ℕ) (rows : List (List ℕ)) (nvals : List ℕ)
    (h : planOffsets block2func sizes nelems nfuncs = .ok (rows, nvals)) :
    ∀ row ∈ rows,
      (∀ e, e + 1 < row.length → row.getD e 0 ≤ row.getD (e + 1) 0) ∧
      (∀ e e' x, e < e' → e' + 1 < row.length →
        row.getD e 0 ≤ x → x < row.getD (e + 1) 0 →
        ¬ (row.getD e' 0 ≤ x ∧ x < row.getD (e' + 1) 0)) := by
  intro row hrow
  have hnd := planOffsets_ok_rows _ _ _ _ _ _ h row hrow
  constructor
  · intro e he
    exact noDec_getD_mono row hnd e (e + 1) (by omega) he
  · intro e e' x he hee' hle hlt hcontra
    obtain ⟨h1, h2⟩ := hcontra
    have hmono : row.getD (e + 1) 0 ≤ row.getD e' 0 :=
      noDec_getD_mono row hnd (e + 1) e' (by omega) (by omega)
    omega

/-- witness for C2: the planned row `[0, 1, 2]` of a two-element one-block
plan is monotone, and the element ranges `[0,1)` and `[1,2)` are disjoint
at the point `0` -/
theorem offsets_monotone_disjoint_C2_witness :
    (([0, 1, 2] : List ℕ).getD 0 0 ≤ ([0, 1, 2] : List ℕ).getD 1 0) ∧
    ¬ (([0, 1, 2] : List ℕ).getD 1 0 ≤ 0 ∧ (0 : ℕ) < ([0, 1, 2] : List ℕ).getD 2 0) :=
  ⟨(offsets_monotone_disjoint_C2 [0] (fun _ _ => 1) 2 1 [[0, 1, 2]] [2] rfl
      [0, 1, 2] (by simp)).1 0 (by decide),
   (offsets_monotone_disjoint_C2 [0] (fun _ _ => 1) 2 1 [[0, 1, 2]] [2] rfl
      [0, 1, 2] (by simp)).2 0 1 0 (by decide) (by decide) (by decide) (by decide)⟩

/-- C3, counterexample to the claimed evaluation schedule: the first pass of
`Sample.integrate_sparse` (lines 193-195) loops over the elements, issuing
one stacked size evaluation covering all blocks per element, so with one
block and two elements the code performs two evaluations where the claim
(one combined evaluation per block across all elements) predicts one. -/
theorem firstPass_schedule_counterexample_C3 :
    (firstPass (fun _ _ => 1) 1 2).2 ≠ claimedSizeCalls 1 2 := by decide

/-- C3 as amended: in the first pass the per-element record counts are
obtained by evaluating, once per element, the stacked size function covering
all blocks (a single combined evaluation across all blocks), filling column
`e+1` of every block row while column 0 is reserved as zero. -/
theorem firstPass_per_element_C3 (sizes : ℕ → ℕ → ℕ) (nblocks nelems : ℕ)
    (h : 0 < nblocks) :
    (firstPass sizes nblocks nelems).1.length = nblocks ∧
    (∀ b, b < nblocks → (firstPass sizes nblocks nelems).1.getD b []
        = 0 :: (List.range nelems).map fun e => sizes b e % U64) ∧
    (firstPass sizes nblocks nelems).2
        = (List.range nelems).map (fun e => ⟨[e], List.range nblocks⟩) ∧
    (firstPass sizes nblocks nelems).2.length = nelems := by
  have hne : nblocks ≠ 0 := Nat.pos_iff_ne_zero.mp h
  refine ⟨by simp [firstPass], ?_, ?_, ?_⟩
  · intro b hb
    simp only [firstPass]
    rw [List.getD_eq_getElem?_getD, List.getElem?_map, List.getElem?_range hb]
    rfl
  · simp [firstPass, hne]
  · simp [firstPass, hne]

/-- witness for C3's amended claim at one block and two elements -/
theorem firstPass_per_element_C3_witness :
    (firstPass (fun _ _ => 1) 1 2).1.length = 1 ∧
    (firstPass (fun _ _ => 1) 1 2).1.getD 0 [] = 0 :: (List.range 2).map (fun _ => 1 % U64) ∧
    (firstPass (fun _ _ => 1) 1 2).2.length = 2 := by
  have H := firstPass_per_element_C3 (fun _ _ => 1) 1 2 (by decide)
  exact ⟨H.1, H.2.1 0 (by decide), H.2.2.2⟩

/-! ## Coordinate-sparse merge algebra (`nutils.sparse`)

The `nutils/sparse.py` module itself is not among the sources; only its
test suite (`tests/test_sparse.py`) is.  The operations below are therefore
modelled from the specification (§3, §4.2) and checked against the concrete
vectors of the test suite.  A record is an index tuple plus a scalar value;
`ℤ` stands in for the integer value types exercised by the tests. -/

/-- Modelled from the spec: one coordinate-sparse record, an index tuple
`(i_0..i_{d-1})` with a scalar value (`nutils/sparse.py` is missing from
the sources). -/
abbrev Record := List ℕ × ℤ

/-- Modelled from the spec: an ordered record sequence tagged with its
declared per-axis extents (`nutils/sparse.py` is missing from the
sources). -/
structure SparseColl where
  shape : List ℕ
  records : List Record
deriving DecidableEq

/-- strict lexicographic order on index tuples, axis 0 most significant -/
def idxLt : List ℕ → List ℕ → Bool
  | [], [] => false
  | [], _ :: _ => true
  | _ :: _, [] => false
  | a :: as, b :: bs => decide (a < b) || (decide (a = b) && idxLt as bs)

namespace sparse

/-- Modelled from the spec: `dedup` groups records by exact index-tuple
equality, summing values per group, with output sorted ascending
lexicographically; realised by insertion into a sorted association list
(`nutils/sparse.py` is missing from the sources; the chunked external
merge it uses is behaviourally equivalent by §8). -/
def insertRecord (k : List ℕ) (v : ℤ) : List Record → List Record
  | [] => [(k, v)]
  | r :: rs =>
    if r.1 = k then (r.1, r.2 + v) :: rs
    else if idxLt k r.1 then (k, v) :: r :: rs
    else r :: insertRecord k v rs

/-- Modelled from the spec: `dedup(data)`, one record per distinct index
tuple, values summed, sorted; zero-valued sums are kept. -/
def dedup (rs : List Record) : List Record :=
  rs.foldl (fun acc r => insertRecord r.1 r.2 acc) []

/-- Modelled from the spec: `prune(data)` removes exactly-zero-valued
records, preserving the relative order of the rest, without merging. -/
def prune (rs : List Record) : List Record :=
  rs.filter fun r => decide (r.2 ≠ 0)

end sparse

/-- total value carried by one index tuple in a record list (the group sum
that `dedup` assigns to it) -/
def sumAt : List Record → List ℕ → ℤ
  | [], _ => 0
  | r :: rs, k => (if r.1 = k then r.2 else 0) + sumAt rs k

/-! ### Order lemmas -/

/-- the lexicographic order is irreflexive -/
lemma idxLt_irrefl (k : List ℕ) : idxLt k k = false := by
  induction k with
  | nil => rfl
  | cons a as ih => simp [idxLt, ih]

/-- the lexicographic order is total on distinct tuples -/
lemma idxLt_total : ∀ {a b : List ℕ}, a ≠ b → idxLt a b = false → idxLt b a = true := by
  intro a
  induction a with
  | nil =>
    intro b hne h
    cases b with
    | nil => exact absurd rfl hne
    | cons y ys => simp [idxLt] at h
  | cons x xs ih =>
    intro b hne h
    cases b with
    | nil => rfl
    | cons y ys =>
      rcases Nat.lt_trichotomy x y with hlt | heq | hgt
      · simp [idxLt, hlt] at h
      · subst heq
        have hne2 : xs ≠ ys := fun hh => hne (by rw [hh])
        have h2 : idxLt xs ys = false := by
          simpa [idxLt] using h
        have h3 := ih hne2 h2
        simp [idxLt, h3]
      · simp [idxLt, hgt]

/-- the lexicographic order is transitive -/
lemma idxLt_trans : ∀ {a b c : List ℕ},
    idxLt a b = true → idxLt b c = true → idxLt a c = true := by
  intro a
  induction a with
  | nil =>
    intro b c h1 h2
    cases b with
    | nil => simp [idxLt] at h1
    | cons y ys =>
      cases c with
      | nil => simp [idxLt] at h2
      | cons z zs => rfl
  | cons x xs ih =>
    intro b c h1 h2
    cases b with
    | nil => simp [idxLt] at h1
    | cons y ys =>
      cases c with
      | nil => simp [idxLt] at h2
      | cons z zs =>
        simp only [idxLt, Bool.or_eq_true, Bool.and_eq_true, decide_eq_true_eq] at h1 h2 ⊢
        rcases h1 with h1 | ⟨h1e, h1r⟩
        · rcases h2 with h2 | ⟨h2e, h2r⟩
          · exact Or.inl (by omega)
          · exact Or.inl (by omega)
        · rcases h2 with h2 | ⟨h2e, h2r⟩
          · exact Or.inl (by omega)
          · exact Or.inr ⟨by omega, ih h1r h2r⟩

/-! ### Dedup lemmas -/

/-- a record of an insertion carries either the inserted key or an existing
key -/
lemma fst_mem_insertRecord (k : List ℕ) (v : ℤ) :
    ∀ (rs : List Record) (b : Record), b ∈ sparse.insertRecord k v rs →
      b.1 = k ∨ b.1 ∈ rs.map Prod.fst := by
  intro rs
  induction rs with
  | nil =>
    intro b hb
    simp only [sparse.insertRecord, List.mem_singleton] at hb
    subst hb
    exact Or.inl rfl
  | cons r tl ih =>
    intro b hb
    by_cases h1 : r.1 = k
    · simp only [sparse.insertRecord, if_pos h1, List.mem_cons] at hb
      rcases hb with hb | hb
      · subst hb; exact Or.inl h1
      · right; rw [List.map_cons]; exact List.mem_cons_of_mem _ (List.mem_map_of_mem _ hb)
    · by_cases h2 : idxLt k r.1 = true
      · simp only [sparse.insertRecord, if_neg h1, if_pos h2, List.mem_cons] at hb
        rcases hb with hb | hb | hb
        · subst hb; exact Or.inl rfl
        · subst hb; right; rw [List.map_cons]; exact List.mem_cons_self _ _
        · right; rw [List.map_cons]; exact List.mem_cons_of_mem _ (List.mem_map_of_mem _ hb)
      · simp only [sparse.insertRecord, if_neg h1, if_neg h2, List.mem_cons] at hb
        rcases hb with hb | hb
        · subst hb; right; rw [List.map_cons]; exact List.mem_cons_self _ _
        · rcases ih b hb with h | h
          · exact Or.inl h
          · right; rw [List.map_cons]; exact List.mem_cons_of_mem _ h

/-- keys after an insertion: the inserted key joins the existing ones -/
lemma keys_insertRecord (k : List ℕ) (v : ℤ) :
    ∀ (rs : List Record) (k' : List ℕ),
      k' ∈ (sparse.insertRecord k v rs).map Prod.fst ↔ k' = k ∨ k' ∈ rs.map Prod.fst := by
  intro rs
  induction rs with
  | nil => intro k'; simp [sparse.insertRecord]
  | cons r tl ih =>
    intro k'
    by_cases h1 : r.1 = k
    · simp only [sparse.insertRecord, if_pos h1, List.map_cons, List.mem_cons]
      rw [h1]
      tauto
    · by_cases h2 : idxLt k r.1 = true
      · simp only [sparse.insertRecord, if_neg h1, if_pos h2, List.map_cons, List.mem_cons]
      · simp only [sparse.insertRecord, if_neg h1, if_neg h2, List.map_cons, List.mem_cons, ih]
        tauto

/-- an insertion adds its value to the total of its key and to no other -/
lemma sumAt_insertRecord (k : List ℕ) (v : ℤ) :
    ∀ (rs : List Record) (k' : List ℕ),
      sumAt (sparse.insertRecord k v rs) k' = sumAt rs k' + (if k' = k then v else 0) := by
  intro rs
  induction rs with
  | nil =>
    intro k'
    by_cases hk : k' = k
    · subst hk; simp [sparse.insertRecord, sumAt]
    · have hk2 : ¬ (k = k') := fun hh => hk hh.symm
      simp [sparse.insertRecord, sumAt, hk, hk2]
  | cons r tl ih =>
    intro k'
    by_cases h1 : r.1 = k
    · simp only [sparse.insertRecord, if_pos h1, sumAt]
      by_cases hk : k' = k
      · have hr : r.1 = k' := by rw [h1, hk]
        simp only [if_pos hr, if_pos hk]
        ring
      · have hr : ¬ r.1 = k' := fun hh => hk (by rw [← hh, h1])
        simp only [if_neg hr, if_neg hk]
        ring
    · simp only [sparse.insertRecord, if_neg h1]
      by_cases h2 : idxLt k r.1 = true
      · simp only [if_pos h2, sumAt]
        by_cases hk : k' = k
        · have hk2 : k = k' := hk.symm
          simp only [if_pos hk, if_pos hk2]
          ring
        · have hk2 : ¬ k = k' := fun hh => hk hh.symm
          simp only [if_neg hk, if_neg hk2]
          ring
      · simp only [if_neg h2, sumAt, ih]
        ring

/-- an insertion into a lexicographically sorted record list stays sorted -/
lemma pairwise_insertRecord (k : List ℕ) (v : ℤ) :
    ∀ rs : List Record, rs.Pairwise (fun a b => idxLt a.1 b.1 = true) →
      (sparse.insertRecord k v rs).Pairwise (fun a b => idxLt a.1 b.1 = true) := by
  intro rs
  induction rs with
  | nil => intro _; simp [sparse.insertRecord]
  | cons r tl ih =>
    intro hp
    rw [List.pairwise_cons] at hp
    obtain ⟨hr, htl⟩ := hp
    by_cases h1 : r.1 = k
    · simp only [sparse.insertRecord, if_pos h1]
      rw [List.pairwise_cons]
      exact ⟨hr, htl⟩
    · by_cases h2 : idxLt k r.1 = true
      · simp only [sparse.insertRecord, if_neg h1, if_pos h2]
        rw [List.pairwise_cons]
        refine ⟨?_, ?_⟩
        · intro b hb
          rcases List.mem_cons.mp hb with hb | hb
          · rw [hb]; exact h2
          · exact idxLt_trans h2 (hr b hb)
        · rw [List.pairwise_cons]
          exact ⟨hr, htl⟩
      · simp only [sparse.insertRecord, if_neg h1, if_neg h2]
        rw [List.pairwise_cons]
        refine ⟨?_, ih htl⟩
        intro b hb
        rcases fst_mem_insertRecord k v tl b hb with hbk | hbm
        · rw [hbk]
          have hkr : ¬ k = r.1 := fun hh => h1 hh.symm
          have h2f : idxLt k r.1 = false := by simpa using h2
          exact idxLt_total hkr h2f
        · obtain ⟨b', hb', hb'eq⟩ := List.mem_map.mp hbm
          have hlt := hr b' hb'
          rw [← hb'eq]
          exact hlt

/-- an absent key carries total zero -/
lemma sumAt_eq_zero (k : List ℕ) :
    ∀ rs : List Record, k ∉ rs.map Prod.fst → sumAt rs k = 0 := by
  intro rs
  induction rs with
  | nil => intro _; rfl
  | cons r tl ih =>
    intro h
    rw [List.map_cons] at h
    have h1 : ¬ r.1 = k := fun hh => h (by rw [hh]; exact List.mem_cons_self _ _)
    have h2 : k ∉ tl.map Prod.fst := fun hh => h (List.mem_cons_of_mem _ hh)
    simp [sumAt, h1, ih h2]

/-- in a sorted record list, every present key is carried by exactly the
record holding the key's total -/
lemma mem_of_sorted_sumAt :
    ∀ rs : List Record, rs.Pairwise (fun a b => idxLt a.1 b.1 = true) →
      ∀ k ∈ rs.map Prod.fst, (k, sumAt rs k) ∈ rs := by
  intro rs
  induction rs with
  | nil => intro _ k hk; simp at hk
  | cons r tl ih =>
    intro hp k hk
    rw [List.pairwise_cons] at hp
    obtain ⟨hr, htl⟩ := hp
    by_cases hkr : k = r.1
    · have hnot : k ∉ tl.map Prod.fst := by
        intro hmem
        obtain ⟨b, hb, hbeq⟩ := List.mem_map.mp hmem
        have hlt := hr b hb
        rw [hbeq, hkr] at hlt
        rw [idxLt_irrefl] at hlt
        exact absurd hlt (by simp)
      have hsum : sumAt (r :: tl) k = r.2 := by
        have h1 : r.1 = k := hkr.symm
        simp [sumAt, h1, sumAt_eq_zero k tl hnot]
      rw [hsum, hkr]
      rw [Prod.mk.eta]
      exact List.mem_cons_self _ _
    · have hk2 : k ∈ tl.map Prod.fst := by
        rw [List.map_cons, List.mem_cons] at hk
        rcases hk with h | h
        · exact absurd h hkr
        · exact h
      have h1 : ¬ r.1 = k := fun hh => hkr hh.symm
      have hs : sumAt (r :: tl) k = sumAt tl k := by simp [sumAt, h1]
      rw [hs]
      exact List.mem_cons_of_mem r (ih htl k hk2)

/-- the dedup fold keeps the accumulator sorted -/
lemma dedup_fold_pairwise :
    ∀ (rs acc : List Record), acc.Pairwise (fun a b => idxLt a.1 b.1 = true) →
      (rs.foldl (fun acc r => sparse.insertRecord r.1 r.2 acc) acc).Pairwise
        (fun a b => idxLt a.1 b.1 = true) := by
  intro rs
  induction rs with
  | nil => intro acc h; exact h
  | cons r tl ih =>
    intro acc h
    exact ih _ (pairwise_insertRecord r.1 r.2 acc h)

/-- the dedup fold adds the input's totals to the accumulator's totals -/
lemma dedup_fold_sumAt :
    ∀ (rs acc : List Record) (k : List ℕ),
      sumAt (rs.foldl (fun acc r => sparse.insertRecord r.1 r.2 acc) acc) k
        = sumAt acc k + sumAt rs k := by
  intro rs
  induction rs with
  | nil => intro acc k; simp [sumAt]
  | cons r tl ih =>
    intro acc k
    rw [List.foldl_cons, ih, sumAt_insertRecord]
    simp only [sumAt]
    by_cases hk : k = r.1
    · have hk2 : r.1 = k := hk.symm
      simp only [if_pos hk, if_pos hk2]
      ring
    · have hk2 : ¬ r.1 = k := fun hh => hk hh.symm
      simp only [if_neg hk, if_neg hk2]
      ring

/-- the dedup fold's keys are the accumulator's keys plus the input's keys -/
lemma dedup_fold_keys :
    ∀ (rs acc : List Record) (k : List ℕ),
      k ∈ (rs.foldl (fun acc r => sparse.insertRecord r.1 r.2 acc) acc).map Prod.fst
        ↔ k ∈ acc.map Prod.fst ∨ k ∈ rs.map Prod.fst := by
  intro rs
  induction rs with
  | nil => intro acc k; simp
  | cons r tl ih =>
    intro acc k
    rw [List.foldl_cons, ih, keys_insertRecord]
    rw [List.map_cons, List.mem_cons]
    tauto

/-- C4: `sparse.dedup` returns a lexicographically sorted list with pairwise
distinct index tuples — exactly one record per distinct input tuple — whose
keys are exactly the input's keys and whose values are the per-group sums;
a group summing to zero is retained (its record is present like any other).
On the test vector of `tests/test_sparse.py` it returns the expected five
sorted records, the zero-summed `(3,)` group included. -/
theorem sparse_dedup_C4 (rs : List Record) :
    (sparse.dedup rs).Pairwise (fun a b => idxLt a.1 b.1 = true) ∧
    ((sparse.dedup rs).map Prod.fst).Nodup ∧
    (∀ k, k ∈ (sparse.dedup rs).map Prod.fst ↔ k ∈ rs.map Prod.fst) ∧
    (∀ k, k ∈ rs.map Prod.fst → (k, sumAt rs k) ∈ sparse.dedup rs) ∧
    sparse.dedup [([4], 10), ([4], 20), ([3], 1), ([2], 30), ([1], 40),
        ([2], 50), ([3], -1), ([0], 0), ([0], 60)]
      = [([0], 60), ([1], 40), ([2], 80), ([3], 0), ([4], 30)] := by
  have hpair : (sparse.dedup rs).Pairwise (fun a b => idxLt a.1 b.1 = true) :=
    dedup_fold_pairwise rs [] (by simp)
  refine ⟨hpair, ?_, ?_, ?_, by decide⟩
  · have hne : (sparse.dedup rs).Pairwise (fun a b => a.1 ≠ b.1) := by
      refine hpair.imp ?_
      intro a b h hab
      rw [hab, idxLt_irrefl] at h
      simp at h
    exact List.pairwise_map.mpr hne
  · intro k
    rw [sparse.dedup, dedup_fold_keys]
    simp
  · intro k hk
    have hsum : sumAt (sparse.dedup rs) k = sumAt rs k := by
      rw [sparse.dedup, dedup_fold_sumAt]
      simp [sumAt]
    have hmem : k ∈ (sparse.dedup rs).map Prod.fst := by
      rw [sparse.dedup, dedup_fold_keys]
      simp [hk]
    have := mem_of_sorted_sumAt (sparse.dedup rs) hpair k hmem
    rw [hsum] at this
    exact this

/-- witness for C4: the zero-summed group `(3,)` of the test vector is
retained by `dedup` with its summed value -/
theorem sparse_dedup_C4_witness :
    (([3] : List ℕ), sumAt [([4], 10), ([4], 20), ([3], 1), ([2], 30), ([1], 40),
        ([2], 50), ([3], -1), ([0], 0), ([0], 60)] [3])
      ∈ sparse.dedup [([4], 10), ([4], 20), ([3], 1), ([2], 30), ([1], 40),
        ([2], 50), ([3], -1), ([0], 0), ([0], 60)] :=
  (sparse_dedup_C4 _).2.2.2.1 [3] (by decide)

/-! ### Typed collections and `sparse.add` -/

/-- Modelled from the spec: the scalar value kinds exercised by the tests,
with their loss-free widening order: `int` widens into `float`
(`nutils/sparse.py` is missing from the sources). -/
inductive VType where
  | tint
  | tfloat
deriving DecidableEq

/-- least value type that both operands widen into losslessly -/
def VType.lub : VType → VType → VType
  | .tint, .tint => .tint
  | _, _ => .tfloat

/-- Modelled from the spec: a sparse collection carrying its declared shape
and value type; values live in `ℚ`, which embeds the integer and the
fractional test values exactly (`nutils/sparse.py` is missing from the
sources). -/
structure TypedColl where
  shape : List ℕ
  vtype : VType
  records : List (List ℕ × ℚ)
deriving DecidableEq

instance : Inhabited TypedColl := ⟨⟨[], .tfloat, []⟩⟩

namespace sparse

/-- Modelled from the spec: `add(datas)` requires one common declared shape,
concatenates all records in input order without merging or sorting, and
promotes the value type to the least common loss-free widening
(`nutils/sparse.py` is missing from the sources). -/
def add (datas : List TypedColl) : Except String TypedColl :=
  match datas with
  | [] => .error "add: no data"
  | d :: rest =>
    if rest.any fun r => decide (r.shape ≠ d.shape) then .error "add: inconsistent shapes"
    else .ok ⟨d.shape, (rest.map TypedColl.vtype).foldl VType.lub d.vtype,
      (d :: rest).flatMap TypedColl.records⟩

/-- Modelled from the spec: `empty(shape)`, a record-free collection of the
given shape with the default floating value type (`nutils/sparse.py` is
missing from the sources). -/
def empty (shape : List ℕ) : TypedColl := ⟨shape, .tfloat, []⟩

end sparse

/-- C5: `sparse.add` demands one common declared shape, concatenates all
records in input order without merging or sorting, and promotes
the value type to the least loss-free widening: integer plus floating gives
floating, and the fractional value `1/2` of
`tests/test_sparse.py::vector.test_add_float` appears in the result
unchanged. -/
theorem sparse_add_C5 :
    (∀ (d : TypedColl) (rest : List TypedColl), (∃ r ∈ rest, r.shape ≠ d.shape) →
      sparse.add (d :: rest) = .error "add: inconsistent shapes") ∧
    (∀ (d : TypedColl) (rest : List TypedColl), (∀ r ∈ rest, r.shape = d.shape) →
      sparse.add (d :: rest) = .ok ⟨d.shape,
        (rest.map TypedColl.vtype).foldl VType.lub d.vtype,
        (d :: rest).flatMap TypedColl.records⟩) ∧
    (∀ a b : TypedColl, a.shape = b.shape → a.vtype = .tint → b.vtype = .tfloat →
      sparse.add [a, b] = .ok ⟨a.shape, .tfloat, a.records ++ b.records⟩) ∧
    sparse.add [⟨[5], .tint, [([4], 10), ([4], 20), ([3], 1), ([2], 30), ([1], 40),
          ([2], 50), ([3], -1), ([0], 0), ([0], 60)]⟩,
        ⟨[5], .tfloat, [([1], -40), ([2], 1/2)]⟩]
      = .ok ⟨[5], .tfloat, [([4], 10), ([4], 20), ([3], 1), ([2], 30), ([1], 40),
          ([2], 50), ([3], -1), ([0], 0), ([0], 60), ([1], -40), ([2], 1/2)]⟩ := by
  refine ⟨?_, ?_, ?_, ?_⟩
  · intro d rest h
    obtain ⟨r, hr, hne⟩ := h
    have hany : (rest.any fun r => decide (r.shape ≠ d.shape)) = true := by
      rw [List.any_eq_true]
      exact ⟨r, hr, by simpa using hne⟩
    simp only [sparse.add, hany]
    rfl
  · intro d rest h
    have hany : (rest.any fun r => decide (r.shape ≠ d.shape)) = false := by
      rw [List.any_eq_false]
      intro r hr
      simp [h r hr]
    simp only [sparse.add, hany]
    rfl
  · intro a b hsh hint hfloat
    have hany : ([b].any fun r => decide (r.shape ≠ a.shape)) = false := by simp [hsh]
    simp only [sparse.add, hany, Bool.false_eq_true, if_false, List.map_cons, List.map_nil,
      List.foldl_cons, List.foldl_nil, List.flatMap_cons, List.flatMap_nil, List.append_nil,
      hint, hfloat]
    rfl
  · rfl

/-- witness for C5: a shape clash errors, equal shapes concatenate, and the
promoted integer-plus-floating example keeps `1/2` intact -/
theorem sparse_add_C5_witness :
    sparse.add [⟨[5], .tint, []⟩, ⟨[4], .tint, []⟩] = .error "add: inconsistent shapes" ∧
    sparse.add [⟨[5], .tint, []⟩, ⟨[5], .tint, []⟩] = .ok ⟨[5], .tint, []⟩ ∧
    sparse.add [⟨[2], .tint, [([0], 3)]⟩, ⟨[2], .tfloat, [([1], 1/2)]⟩]
      = .ok ⟨[2], .tfloat, [([0], 3), ([1], 1/2)]⟩ :=
  ⟨sparse_add_C5.1 ⟨[5], .tint, []⟩ [⟨[4], .tint, []⟩]
      ⟨⟨[4], .tint, []⟩, List.mem_singleton.mpr rfl, by decide⟩,
   sparse_add_C5.2.1 ⟨[5], .tint, []⟩ [⟨[5], .tint, []⟩]
      (fun r hr => by rw [List.mem_singleton.mp hr]),
   sparse_add_C5.2.2.1 ⟨[2], .tint, [([0], 3)]⟩ ⟨[2], .tfloat, [([1], 1/2)]⟩ rfl rfl rfl⟩

/-! ### `sparse.block` on a rank-1 structure -/

namespace sparse

/-- keep a list of optional leaves only when every leaf is present -/
def allSome : List (Option SparseColl) → Option (List SparseColl)
  | [] => some []
  | none :: _ => none
  | some x :: rest => (allSome rest).map fun ls => x :: ls

/-- running offsets of the axis extents: each leaf's shift is the sum of the
extents of the leaves preceding it -/
def offsetsOf : List ℕ → List ℕ
  | [] => []
  | s :: ss => 0 :: (offsetsOf ss).map fun o => o + s

/-- Modelled from the spec: rank-1 `block(datas)`: every position along the
single axis must hold a present leaf (a group with zero present leaves is a
construction error) of rank 1; the output extent is the sum of the leaf
extents, each leaf's indices are shifted by the total extent before it, and
the leaves' records are concatenated in traversal order with each leaf's
internal order preserved (`nutils/sparse.py` is missing from the
sources). -/
def block1 (leaves : List (Option SparseColl)) : Except String SparseColl :=
  match allSome leaves with
  | none => .error "block: a group has zero present leaves"
  | some ls =>
    if ls.any fun l => decide (l.shape.length ≠ 1) then
      .error "block: leaves must have rank 1"
    else
      .ok ⟨[(ls.map fun l => l.shape.headD 0).sum],
        (ls.zip (offsetsOf (ls.map fun l => l.shape.headD 0))).flatMap fun p =>
          p.1.records.map fun r => (([r.1.headD 0 + p.2] : List ℕ), r.2)⟩

end sparse

/-- C6: rank-1 `sparse.block` over present leaves of extents 5, 3, 3 — the
leaves of `tests/test_sparse.py::vector.test_block` — has total extent 11,
shifts the leaves' indices by 0, 5 and 8 respectively, and concatenates the
leaves in traversal order with internal record order preserved; a structure
whose group has zero present leaves is rejected at construction. -/
theorem sparse_block_C6 :
    sparse.block1 [some ⟨[5], [([4], 10), ([4], 20), ([3], 1), ([2], 30), ([1], 40),
          ([2], 50), ([3], -1), ([0], 0), ([0], 60)]⟩,
        some ⟨[3], [([1], 10)]⟩, some ⟨[3], [([1], 10)]⟩]
      = .ok ⟨[11], [([4], 10), ([4], 20), ([3], 1), ([2], 30), ([1], 40), ([2], 50),
          ([3], -1), ([0], 0), ([0], 60), ([6], 10), ([9], 10)]⟩ ∧
    (∀ leaves : List (Option SparseColl), none ∈ leaves →
      sparse.block1 leaves = .error "block: a group has zero present leaves") := by
  constructor
  · rfl
  · have key : ∀ ls : List (Option SparseColl), none ∈ ls → sparse.allSome ls = none := by
      intro ls
      induction ls with
      | nil => intro h; simp at h
      | cons x xs ih =>
        intro h
        cases x with
        | none => rfl
        | some y =>
          rcases List.mem_cons.mp h with h1 | h1
          · cases h1
          · simp [sparse.allSome, ih h1]
    intro leaves h
    simp [sparse.block1, key leaves h]

/-- witness for C6: a single absent leaf is rejected -/
theorem sparse_block_C6_witness :
    sparse.block1 [none] = .error "block: a group has zero present leaves" :=
  sparse_block_C6.2 [none] (List.mem_singleton.mpr rfl)

/-! ### Final materialization (`_convert`, `nutils/sample.py` 610-622) -/

namespace sparse

/-- rank of a sparse collection (`sparse.ndim`) -/
def ndim (d : SparseColl) : ℕ := d.shape.length

/-- Modelled from the spec: dense materialization of a rank-0 collection is
its single cell, the total of all records (`nutils/sparse.py` is missing
from the sources) -/
def toarray0 (d : SparseColl) : ℤ := sumAt d.records []

/-- Modelled from the spec: dense materialization of a rank-1 collection, a
zero-initialized vector accumulating every record at its coordinate
(`nutils/sparse.py` is missing from the sources) -/
def toarray1 (d : SparseColl) : List ℤ :=
  (List.range (d.shape.headD 0)).map fun i => sumAt d.records [i]

/-- `dedup` lifted to a collection -/
def dedupC (d : SparseColl) : SparseColl := ⟨d.shape, dedup d.records⟩

/-- `prune` lifted to a collection -/
def pruneC (d : SparseColl) : SparseColl := ⟨d.shape, prune d.records⟩

end sparse

/-- opaque object of the external Matrix collaborator, created from rank-2
sparse data by `matrix.fromsparse` -/
structure MatrixObj where
  fromsparse ::
  data : SparseColl
deriving DecidableEq

/-- the possible results of `_convert`: a scalar, a dense vector, a backend
matrix, or sparse data -/
inductive Converted where
  | scalar (v : ℤ)
  | vector (a : List ℤ)
  | matrixObj (m : MatrixObj)
  | sparseObj (d : SparseColl)
deriving DecidableEq

/-- `_convert` (`nutils/sample.py` 610-622): a dense array below rank 2 (a
scalar at rank 0, a vector at rank 1), a backend matrix at rank 2, and
pruned-after-dedup sparse data at rank 3 and higher -/
def convert (d : SparseColl) : Converted :=
  if sparse.ndim d = 0 then .scalar (sparse.toarray0 d)
  else if sparse.ndim d = 1 then .vector (sparse.toarray1 d)
  else if sparse.ndim d = 2 then .matrixObj (MatrixObj.fromsparse d)
  else .sparseObj (sparse.pruneC (sparse.dedupC d))

/-- C9: `_convert` selects the representation by rank — rank 0 a scalar,
rank 1 a dense vector, rank 2 a backend matrix through the Matrix
collaborator, rank 3 and higher a sparse form that has been deduplicated
and then pruned (so it carries no zero value and no repeated index
tuple). -/
theorem convert_by_rank_C9 (d : SparseColl) :
    (sparse.ndim d = 0 → convert d = .scalar (sparse.toarray0 d)) ∧
    (sparse.ndim d = 1 → convert d = .vector (sparse.toarray1 d)) ∧
    (sparse.ndim d = 2 → convert d = .matrixObj (MatrixObj.fromsparse d)) ∧
    (3 ≤ sparse.ndim d →
      convert d = .sparseObj (sparse.pruneC (sparse.dedupC d)) ∧
      (∀ r ∈ (sparse.pruneC (sparse.dedupC d)).records, r.2 ≠ 0) ∧
      ((sparse.pruneC (sparse.dedupC d)).records.map Prod.fst).Nodup) := by
  refine ⟨?_, ?_, ?_, ?_⟩
  · intro h; simp [convert, h]
  · intro h; simp [convert, h]
  · intro h; simp [convert, h]
  · intro h
    have h0 : ¬ sparse.ndim d = 0 := by omega
    have h1 : ¬ sparse.ndim d = 1 := by omega
    have h2 : ¬ sparse.ndim d = 2 := by omega
    refine ⟨by simp [convert, h0, h1, h2], ?_, ?_⟩
    · intro r hr
      simp only [sparse.pruneC, sparse.prune, List.mem_filter] at hr
      simpa using hr.2
    · have hpair : (sparse.dedup d.records).Pairwise (fun a b => idxLt a.1 b.1 = true) :=
        dedup_fold_pairwise d.records [] (by simp)
      have hne : (sparse.dedup d.records).Pairwise (fun a b => a.1 ≠ b.1) := by
        refine hpair.imp ?_
        intro a b hab h'
        rw [h', idxLt_irrefl] at hab
        simp at hab
      have hsub : (sparse.pruneC (sparse.dedupC d)).records.Sublist (sparse.dedup d.records) := by
        simp only [sparse.pruneC, sparse.dedupC, sparse.prune]
        exact List.filter_sublist _
      exact List.pairwise_map.mpr (List.Pairwise.sublist hsub hne)

/-- witness for C9 at each rank: concrete collections of ranks 0 to 3 are
sent to a scalar, a vector, a matrix, and pruned-deduplicated sparse data -/
theorem convert_by_rank_C9_witness :
    convert ⟨[], [([], 7)]⟩ = .scalar (sparse.toarray0 ⟨[], [([], 7)]⟩) ∧
    convert ⟨[2], [([0], 3)]⟩ = .vector (sparse.toarray1 ⟨[2], [([0], 3)]⟩) ∧
    convert ⟨[2, 2], []⟩ = .matrixObj (MatrixObj.fromsparse ⟨[2, 2], []⟩) ∧
    convert ⟨[1, 1, 1], [([0, 0, 0], 0)]⟩
      = .sparseObj (sparse.pruneC (sparse.dedupC ⟨[1, 1, 1], [([0, 0, 0], 0)]⟩)) :=
  ⟨(convert_by_rank_C9 _).1 rfl, (convert_by_rank_C9 _).2.1 rfl,
   (convert_by_rank_C9 _).2.2.1 rfl, ((convert_by_rank_C9 _).2.2.2 (by decide)).1⟩

/-! ## Integral algebra (`Integral`, `nutils/sample.py` 392-549)

The `Function` collaborator (`nutils.function`) is external to the core and
not among the sources; an integrand is modelled from the spec as an integer
with pointwise addition and negation, `function.iszero` holding exactly on
the zero integrand. -/

/-- Modelled from the spec: `function.iszero`, the eager identically-zero
test applied at `Integral` construction (the `Function` collaborator is
external). -/
def iszero (f : ℤ) : Bool := decide (f = 0)

/-- the `Integral` of `nutils/sample.py`: a declared shape plus the term map
`_integrands` binding sample identifiers to integrands (a frozendict, so
keys are pairwise distinct) -/
structure Integral where
  shape : List ℕ
  terms : List (ℕ × ℤ)
deriving DecidableEq

instance : Inhabited Integral := ⟨⟨[], []⟩⟩

/-- `Integral.__init__` (lines 420-424): terms proven identically zero are
dropped eagerly at construction -/
def mkIntegral (terms : List (ℕ × ℤ)) (shape : List ℕ) : Integral :=
  ⟨shape, terms.filter fun t => !iszero t.2⟩

/-- value a term map binds a sample to, zero when the sample is absent -/
def lookup0 : List (ℕ × ℤ) → ℕ → ℤ
  | [], _ => 0
  | t :: ts, s => if t.1 = s then t.2 else lookup0 ts s

/-- the dict update `integrands[di] += integrand` with its `KeyError`
fallback `integrands[di] = integrand` from `Integral.__add__` -/
def updateAdd (di : ℕ) (g : ℤ) : List (ℕ × ℤ) → List (ℕ × ℤ)
  | [] => [(di, g)]
  | t :: ts => if t.1 = di then (t.1, t.2 + g) :: ts else t :: updateAdd di g ts

/-- `Integral.__add__` (lines 506-516): asserts equal shapes, merges the
term maps by adding the terms of overlapping samples, and rebuilds through
the constructor -/
def Integral.add (a b : Integral) : Option Integral :=
  if a.shape = b.shape then
    some (mkIntegral (b.terms.foldl (fun m t => updateAdd t.1 t.2 m) a.terms) a.shape)
  else none

/-- `Integral.__neg__` (lines 518-519): negate every term -/
def Integral.neg (a : Integral) : Integral :=
  mkIntegral (a.terms.map fun t => (t.1, -t.2)) a.shape

/-- `Integral.__sub__` (lines 521-522): `self + (-other)` -/
def Integral.sub (a b : Integral) : Option Integral := a.add b.neg

/-! ### Term-map lemmas -/

/-- the dict update changes exactly the bound value of its key -/
lemma lookup0_updateAdd (k : ℕ) (g : ℤ) : ∀ (m : List (ℕ × ℤ)) (s : ℕ),
    lookup0 (updateAdd k g m) s = if s = k then lookup0 m s + g else lookup0 m s := by
  intro m
  induction m with
  | nil =>
    intro s
    by_cases hs : s = k
    · subst hs; simp [updateAdd, lookup0]
    · have hs2 : ¬ k = s := fun hh => hs hh.symm
      simp [updateAdd, lookup0, hs, hs2]
  | cons t ts ih =>
    intro s
    by_cases h1 : t.1 = k
    · simp only [updateAdd, if_pos h1, lookup0]
      by_cases hs : s = k
      · have ht : t.1 = s := by rw [h1, hs]
        simp [ht, hs]
      · have ht : ¬ t.1 = s := fun hh => hs (hh.symm.trans h1)
        simp [ht, hs]
    · simp only [updateAdd, if_neg h1, lookup0, ih]
      by_cases ht : t.1 = s
      · have hs : ¬ s = k := fun hh => h1 (ht.trans hh)
        simp [ht, hs]
      · by_cases hs : s = k <;> simp [ht, hs, h1]

/-- keys after the dict update -/
lemma keys_updateAdd (k : ℕ) (g : ℤ) : ∀ (m : List (ℕ × ℤ)) (s : ℕ),
    s ∈ (updateAdd k g m).map Prod.fst ↔ s = k ∨ s ∈ m.map Prod.fst := by
  intro m
  induction m with
  | nil => intro s; simp [updateAdd]
  | cons t ts ih =>
    intro s
    by_cases h1 : t.1 = k
    · simp only [updateAdd, if_pos h1, List.map_cons, List.mem_cons]
      rw [h1]
      tauto
    · simp only [updateAdd, if_neg h1, List.map_cons, List.mem_cons, ih]
      tauto

/-- the dict update keeps keys pairwise distinct -/
lemma nodup_updateAdd (k : ℕ) (g : ℤ) : ∀ m : List (ℕ × ℤ),
    (m.map Prod.fst).Nodup → ((updateAdd k g m).map Prod.fst).Nodup := by
  intro m
  induction m with
  | nil => intro _; simp [updateAdd]
  | cons t ts ih =>
    intro h
    rw [List.map_cons, List.nodup_cons] at h
    obtain ⟨hmem, hnd⟩ := h
    by_cases h1 : t.1 = k
    · simp only [updateAdd, if_pos h1, List.map_cons, List.nodup_cons]
      exact ⟨hmem, hnd⟩
    · simp only [updateAdd, if_neg h1, List.map_cons, List.nodup_cons]
      refine ⟨?_, ih hnd⟩
      intro hin
      rcases (keys_updateAdd k g ts t.1).mp hin with h | h
      · exact h1 h
      · exact hmem h

/-- an absent sample is bound to zero -/
lemma lookup0_eq_zero_of_not_mem : ∀ (m : List (ℕ × ℤ)) (s : ℕ),
    s ∉ m.map Prod.fst → lookup0 m s = 0 := by
  intro m
  induction m with
  | nil => intro s _; rfl
  | cons t ts ih =>
    intro s h
    rw [List.map_cons] at h
    have h1 : ¬ t.1 = s := fun hh => h (by rw [hh]; exact List.mem_cons_self _ _)
    have h2 : s ∉ ts.map Prod.fst := fun hh => h (List.mem_cons_of_mem _ hh)
    simp [lookup0, h1, ih s h2]

/-- merging a term map into another adds the two bindings samplewise -/
lemma lookup0_fold : ∀ (b m : List (ℕ × ℤ)) (s : ℕ), (b.map Prod.fst).Nodup →
    lookup0 (b.foldl (fun m t => updateAdd t.1 t.2 m) m) s = lookup0 m s + lookup0 b s := by
  intro b
  induction b with
  | nil => intro m s _; simp [lookup0]
  | cons t ts ih =>
    intro m s hnd
    rw [List.map_cons, List.nodup_cons] at hnd
    obtain ⟨hmem, hnd⟩ := hnd
    rw [List.foldl_cons, ih _ s hnd, lookup0_updateAdd]
    simp only [lookup0]
    by_cases hs : s = t.1
    · have hz : lookup0 ts s = 0 := lookup0_eq_zero_of_not_mem ts s (by rw [hs]; exact hmem)
      have ht : t.1 = s := hs.symm
      simp only [if_pos hs, if_pos ht, hz]
      ring
    · have ht : ¬ t.1 = s := fun hh => hs hh.symm
      simp only [if_neg hs, if_neg ht]

/-- the merge fold keeps keys pairwise distinct -/
lemma nodup_fold : ∀ (b m : List (ℕ × ℤ)), (m.map Prod.fst).Nodup →
    ((b.foldl (fun m t => updateAdd t.1 t.2 m) m).map Prod.fst).Nodup := by
  intro b
  induction b with
  | nil => intro m h; exact h
  | cons t ts ih => intro m h; exact ih _ (nodup_updateAdd t.1 t.2 m h)

/-- dropping identically-zero terms changes no binding -/
lemma lookup0_filter : ∀ (m : List (ℕ × ℤ)) (s : ℕ), (m.map Prod.fst).Nodup →
    lookup0 (m.filter fun t => !iszero t.2) s = lookup0 m s := by
  intro m
  induction m with
  | nil => intro s _; rfl
  | cons t ts ih =>
    intro s hnd
    rw [List.map_cons, List.nodup_cons] at hnd
    obtain ⟨hmem, hnd⟩ := hnd
    rw [List.filter_cons]
    by_cases hz : t.2 = 0
    · have hb : (!iszero t.2) = false := by simp [iszero, hz]
      rw [hb, if_neg (by simp)]
      rw [ih s hnd]
      simp only [lookup0]
      by_cases ht : t.1 = s
      · have : lookup0 ts s = 0 :=
          lookup0_eq_zero_of_not_mem ts s (by rw [← ht]; exact hmem)
        simp [ht, this, hz]
      · simp [ht]
    · have hb : (!iszero t.2) = true := by simp [iszero, hz]
      rw [hb, if_pos rfl]
      simp only [lookup0, ih s hnd]

/-- C7: for Integrals of equal shape, subtraction is definitionally addition
of the negation, and addition merges the two term maps: every sample is
bound (up to the canonical dropping of identically-zero terms, absent terms
reading as zero) to the sum of its bindings in the operands — overlapping
samples' terms are summed, terms present on one side only are kept. -/
theorem integral_sub_add_neg_C7 (a b : Integral)
    (ha : (a.terms.map Prod.fst).Nodup) (hb : (b.terms.map Prod.fst).Nodup)
    (hsh : a.shape = b.shape) :
    a.sub b = a.add b.neg ∧
    ∃ c, a.add b = some c ∧ c.shape = a.shape ∧
      ∀ s, lookup0 c.terms s = lookup0 a.terms s + lookup0 b.terms s := by
  refine ⟨rfl, ?_⟩
  refine ⟨mkIntegral (b.terms.foldl (fun m t => updateAdd t.1 t.2 m) a.terms) a.shape,
    ?_, rfl, ?_⟩
  · rw [Integral.add, if_pos hsh]
  · intro s
    have hnd : ((b.terms.foldl (fun m t => updateAdd t.1 t.2 m) a.terms).map Prod.fst).Nodup :=
      nodup_fold b.terms a.terms ha
    calc lookup0 (mkIntegral (b.terms.foldl (fun m t => updateAdd t.1 t.2 m) a.terms)
            a.shape).terms s
        = lookup0 ((b.terms.foldl (fun m t => updateAdd t.1 t.2 m) a.terms).filter
            fun t => !iszero t.2) s := rfl
      _ = lookup0 (b.terms.foldl (fun m t => updateAdd t.1 t.2 m) a.terms) s :=
          lookup0_filter _ s hnd
      _ = lookup0 a.terms s + lookup0 b.terms s := lookup0_fold b.terms a.terms s hb

/-- witness for C7 on two concrete Integrals sharing shape `[2]`, whose
overlapping sample 1 cancels to zero and is dropped while samples 0 and 2
are kept -/
theorem integral_sub_add_neg_C7_witness :
    Integral.sub ⟨[2], [(0, 3), (1, 5)]⟩ ⟨[2], [(1, -5), (2, 7)]⟩
      = Integral.add ⟨[2], [(0, 3), (1, 5)]⟩ (Integral.neg ⟨[2], [(1, -5), (2, 7)]⟩) ∧
    ∃ c, Integral.add ⟨[2], [(0, 3), (1, 5)]⟩ ⟨[2], [(1, -5), (2, 7)]⟩ = some c ∧
      c.shape = [2] ∧
      ∀ s, lookup0 c.terms s = lookup0 [(0, 3), (1, 5)] s + lookup0 [(1, -5), (2, 7)] s :=
  integral_sub_add_neg_C7 ⟨[2], [(0, 3), (1, 5)]⟩ ⟨[2], [(1, -5), (2, 7)]⟩
    (by decide) (by decide) rfl

/-! ### Argument queries (`Integral._argshape` / `Integral.contains`,
`nutils/sample.py` 486-504 and 536-545) -/

/-- Modelled from the spec: one `function.Argument` dependency of an
integrand, its name and its base shape
`func.shape[:func.ndim - func._nderiv]` (the `Function` collaborator is
external). -/
structure ArgDep where
  name : String
  shape : List ℕ
deriving DecidableEq

/-- view of an `Integral` recording, per term, the `Argument` dependencies
that `_argshape` inspects -/
structure ArgIntegral where
  terms : List (ℕ × List ArgDep)
deriving DecidableEq

/-- the exceptions `_argshape` can raise: `KeyError(name)` for an absent
name, and the `assert len(shapes) == 1` failure for inconsistent shapes -/
inductive PyErr where
  | keyError
  | assertError
deriving DecidableEq

/-- base shapes of all Argument dependencies carrying the name, across all
terms (the comprehension feeding the `shapes` set of `_argshape`) -/
def collectShapes (I : ArgIntegral) (name : String) : List (List ℕ) :=
  ((I.terms.flatMap fun t => t.2).filter fun d => decide (d.name = name)).map ArgDep.shape

/-- set-like deduplication of the collected shapes; emptiness and
singleton-ness agree with the python `set` -/
def distinctShapes : List (List ℕ) → List (List ℕ)
  | [] => []
  | s :: ss => if s ∈ ss then distinctShapes ss else s :: distinctShapes ss

/-- `Integral._argshape` (lines 536-545): `KeyError` when no dependency
carries the name, the single shared shape otherwise, and the assertion
failure when occurrences disagree -/
def argshape (I : ArgIntegral) (name : String) : Except PyErr (List ℕ) :=
  match distinctShapes (collectShapes I name) with
  | [] => .error .keyError
  | [s] => .ok s
  | _ => .error .assertError

/-- `Integral.contains` (lines 486-504): call `_argshape`, catch exactly
`KeyError` as `False`, answer `True` on success; any other exception
propagates -/
def contains (I : ArgIntegral) (name : String) : Except PyErr Bool :=
  match argshape I name with
  | .error .keyError => .ok false
  | .error e => .error e
  | .ok _ => .ok true

/-- the queried name occurs in some term -/
def presentArg (I : ArgIntegral) (name : String) : Bool :=
  I.terms.any fun t => t.2.any fun d => decide (d.name = name)

/-- no shape is collected for a name exactly when the name is absent from
every term -/
lemma collect_nil_iff (I : ArgIntegral) (name : String) :
    collectShapes I name = [] ↔ presentArg I name = false := by
  constructor
  · intro h
    cases hp : presentArg I name
    · rfl
    · exfalso
      obtain ⟨t, ht, hin⟩ := List.any_eq_true.mp hp
      obtain ⟨d, hd, hdec⟩ := List.any_eq_true.mp hin
      have hmem : d ∈ I.terms.flatMap fun t => t.2 := List.mem_flatMap.mpr ⟨t, ht, hd⟩
      have hsh : d.shape ∈ collectShapes I name :=
        List.mem_map_of_mem _ (List.mem_filter.mpr ⟨hmem, hdec⟩)
      rw [h] at hsh
      simp at hsh
  · intro h
    have hflt : ((I.terms.flatMap fun t => t.2).filter
        fun d => decide (d.name = name)) = [] := by
      rw [List.filter_eq_nil_iff]
      intro d hd
      obtain ⟨t, ht, hd2⟩ := List.mem_flatMap.mp hd
      have h2 : (t.2.any fun d => decide (d.name = name)) = false := by
        simpa using List.any_eq_false.mp h t ht
      simpa using List.any_eq_false.mp h2 d hd2
    rw [collectShapes, hflt]
    rfl

/-- deduplication empties exactly the empty list -/
lemma distinctShapes_nil_iff : ∀ l : List (List ℕ), distinctShapes l = [] ↔ l = [] := by
  intro l
  induction l with
  | nil => simp [distinctShapes]
  | cons s ss ih =>
    simp only [distinctShapes]
    by_cases h : s ∈ ss
    · rw [if_pos h]
      constructor
      · intro h2
        rw [ih.mp h2] at h
        simp at h
      · intro h2
        simp at h2
    · rw [if_neg h]
      simp

/-- C8 as amended: `_argshape` signals `KeyError` exactly when the name is
absent from every term, and `contains` answers `False` exactly then;
`KeyError` itself never escapes `contains`.  When the name does occur,
`contains` answers `True` whenever `_argshape` resolves one shared shape,
but when occurrences disagree on the shape the assertion failure of
`_argshape` propagates through `contains` instead of an answer. -/
theorem integral_contains_C8 (I : ArgIntegral) (name : String) :
    (argshape I name = .error .keyError ↔ presentArg I name = false) ∧
    (contains I name = .ok false ↔ presentArg I name = false) ∧
    contains I name ≠ .error .keyError ∧
    (presentArg I name = true →
      contains I name = .ok true ∨ contains I name = .error .assertError) ∧
    (∀ s, argshape I name = .ok s → contains I name = .ok true) := by
  cases hd : distinctShapes (collectShapes I name) with
  | nil =>
    have hcol : collectShapes I name = [] := (distinctShapes_nil_iff _).mp hd
    have hpres : presentArg I name = false := (collect_nil_iff I name).mp hcol
    have hargs : argshape I name = .error .keyError := by
      unfold argshape
      rw [hd]
    have hcont : contains I name = .ok false := by
      unfold contains
      rw [hargs]
    refine ⟨by rw [hargs]; simp [hpres], by rw [hcont]; simp [hpres],
      by rw [hcont]; simp, ?_, ?_⟩
    · intro hp
      rw [hpres] at hp
      cases hp
    · intro s hs
      rw [hargs] at hs
      cases hs
  | cons s ss =>
    have hne : collectShapes I name ≠ [] := by
      intro h
      rw [h] at hd
      simp [distinctShapes] at hd
    have hpres : presentArg I name = true := by
      cases hp : presentArg I name
      · exact absurd ((collect_nil_iff I name).mpr hp) hne
      · rfl
    cases ss with
    | nil =>
      have hargs : argshape I name = .ok s := by
        unfold argshape
        rw [hd]
      have hcont : contains I name = .ok true := by
        unfold contains
        rw [hargs]
      refine ⟨by rw [hargs]; simp [hpres], by rw [hcont]; simp [hpres],
        by rw [hcont]; simp, fun _ => Or.inl hcont, fun _ _ => hcont⟩
    | cons s2 ss2 =>
      have hargs : argshape I name = .error .assertError := by
        unfold argshape
        rw [hd]
      have hcont : contains I name = .error .assertError := by
        unfold contains
        rw [hargs]
      refine ⟨by rw [hargs]; simp [hpres], by rw [hcont]; simp [hpres],
        by rw [hcont]; simp, fun _ => Or.inr hcont, ?_⟩
      intro t ht
      rw [hargs] at ht
      cases ht

/-- witness for C8's amended claim: a present, shape-consistent name
answers `True`, and an absent name answers `False` without raising -/
theorem integral_contains_C8_witness :
    contains ⟨[(0, [⟨"u", [2]⟩])]⟩ "u" = .ok true ∧
    (contains ⟨[(0, [⟨"u", [2]⟩])]⟩ "v" = .ok false ↔
      presentArg ⟨[(0, [⟨"u", [2]⟩])]⟩ "v" = false) ∧
    (contains ⟨[(0, [⟨"u", [2]⟩])]⟩ "u" = .ok true ∨
      contains ⟨[(0, [⟨"u", [2]⟩])]⟩ "u" = .error .assertError) :=
  ⟨(integral_contains_C8 ⟨[(0, [⟨"u", [2]⟩])]⟩ "u").2.2.2.2 [2] rfl,
   (integral_contains_C8 ⟨[(0, [⟨"u", [2]⟩])]⟩ "v").2.1,
   (integral_contains_C8 ⟨[(0, [⟨"u", [2]⟩])]⟩ "u").2.2.2.1 (by decide)⟩

/-- an Integral whose two terms bind the same argument name at the distinct
base shapes `[2]` and `[3]` -/
def inconsistentArgs : ArgIntegral :=
  ⟨[(0, [⟨"x", [2]⟩]), (1, [⟨"x", [3]⟩])]⟩

/-- C8, counterexample to the claim as stated: the name `x` occurs in the
terms of `inconsistentArgs`, yet `contains` does not return `True` — the
shape-consistency assertion of `_argshape` is not a `KeyError`, so it
escapes the `except KeyError` handler of `contains` and the call raises. -/
theorem integral_contains_C8_counterexample :
    presentArg inconsistentArgs "x" = true ∧
    contains inconsistentArgs "x" = .error .assertError := by
  exact ⟨by decide, rfl⟩

/-! ### Batched evaluation (`eval_integrals_sparse`, `nutils/sample.py`
577-608) -/

/-- one step of `util.gather`: file the pair under its key, keys kept in
order of first occurrence, values in arrival order -/
def addPair : List (ℕ × List ℕ) → ℕ × ℕ → List (ℕ × List ℕ)
  | [], p => [(p.1, [p.2])]
  | g :: gs, p => if g.1 = p.1 then (g.1, g.2 ++ [p.2]) :: gs else g :: addPair gs p

/-- `util.gather`: group (sample, integral index) pairs by sample -/
def gather (ps : List (ℕ × ℕ)) : List (ℕ × List ℕ) := ps.foldl addPair []

/-- the `(di, iint)` pairs of the comprehension on line 602: for every
integral in order, its samples in term order -/
def integralPairsAux : ℕ → List Integral → List (ℕ × ℕ)
  | _, [] => []
  | i, I :: rest => (I.terms.map fun t => (t.1, i)) ++ integralPairsAux (i + 1) rest

/-- all (sample, integral index) obligations of a batch -/
def integralPairs (ints : List Integral) : List (ℕ × ℕ) := integralPairsAux 0 ints

/-- `retvals[iint].append(retval)` -/
def appendAt : List (List TypedColl) → ℕ → TypedColl → List (List TypedColl)
  | [], _, _ => []
  | l :: ls, 0, x => (l ++ [x]) :: ls
  | l :: ls, i + 1, x => l :: appendAt ls i x

/-- the per-integral result lists of `eval_integrals_sparse` just before the
final adds (lines 601-606): each list is seeded with `sparse.empty(shape)`
and then extended, gathered sample group by sample group, with the joint
integration results; `sint sample f shape` stands for the sparse data
`Sample.integrate_sparse` returns for the one integrand `f` -/
def evalLists (ints : List Integral) (sint : ℕ → ℤ → List ℕ → TypedColl) :
    List (List TypedColl) :=
  (gather (integralPairs ints)).foldl
    (fun rv g => g.2.foldl (fun rv2 iint =>
      appendAt rv2 iint (sint g.1 (lookup0 (ints.getD iint default).terms g.1)
        (ints.getD iint default).shape)) rv)
    (ints.map fun I => [sparse.empty I.shape])

/-- the final `[sparse.add(retval) for retval in retvals]` (line 608) -/
def mapAdd : List (List TypedColl) → Except String (List TypedColl)
  | [] => .ok []
  | l :: ls =>
    match sparse.add l, mapAdd ls with
    | .ok y, .ok ys => .ok (y :: ys)
    | .error e, _ => .error e
    | .ok _, .error e => .error e

/-- `eval_integrals_sparse` (lines 598-608) -/
def evalIntegralsSparse (ints : List Integral) (sint : ℕ → ℤ → List ℕ → TypedColl) :
    Except String (List TypedColl) :=
  mapAdd (evalLists ints sint)

/-- invariant of the result lists: one list per integral, each headed by the
empty seed of its integral's shape, every later entry of that shape, and
still bare for an integral with no terms -/
def Seeded (ints : List Integral) (rv : List (List TypedColl)) : Prop :=
  rv.length = ints.length ∧
  ∀ i, i < ints.length →
    ∃ tail, rv.getD i [] = sparse.empty (ints.getD i default).shape :: tail ∧
      (∀ c ∈ tail, c.shape = (ints.getD i default).shape) ∧
      ((ints.getD i default).terms = [] → tail = [])

/-- reading the freshly seeded lists -/
lemma getD_map_seed : ∀ (ints : List Integral) (i : ℕ), i < ints.length →
    (ints.map fun I => [sparse.empty I.shape]).getD i []
      = [sparse.empty ((ints.getD i default).shape)] := by
  intro ints
  induction ints with
  | nil => intro i h; simp at h
  | cons I rest ih =>
    intro i h
    cases i with
    | zero => rfl
    | succ n =>
      simp only [List.map_cons, List.getD_cons_succ]
      exact ih n (by simpa using h)

/-- the seed satisfies the invariant -/
lemma Seeded_init (ints : List Integral) :
    Seeded ints (ints.map fun I => [sparse.empty I.shape]) := by
  refine ⟨by simp, ?_⟩
  intro i hi
  exact ⟨[], by rw [getD_map_seed ints i hi], by simp, fun _ => rfl⟩

/-- appending never changes the number of lists -/
lemma appendAt_length : ∀ (rv : List (List TypedColl)) (j : ℕ) (x : TypedColl),
    (appendAt rv j x).length = rv.length := by
  intro rv
  induction rv with
  | nil => intro j x; rfl
  | cons l ls ih =>
    intro j x
    cases j with
    | zero => rfl
    | succ m => simp [appendAt, ih m x]

/-- appending touches no other list -/
lemma appendAt_getD_ne : ∀ (rv : List (List TypedColl)) (j : ℕ) (x : TypedColl) (i : ℕ),
    i ≠ j → (appendAt rv j x).getD i [] = rv.getD i [] := by
  intro rv
  induction rv with
  | nil => intro j x i _; rfl
  | cons l ls ih =>
    intro j x i hij
    cases j with
    | zero =>
      cases i with
      | zero => exact absurd rfl hij
      | succ n => rfl
    | succ m =>
      cases i with
      | zero => rfl
      | succ n => simpa [appendAt] using ih m x n (by omega)

/-- appending extends exactly the addressed list -/
lemma appendAt_getD_eq : ∀ (rv : List (List TypedColl)) (j : ℕ) (x : TypedColl),
    j < rv.length → (appendAt rv j x).getD j [] = rv.getD j [] ++ [x] := by
  intro rv
  induction rv with
  | nil => intro j x h; simp at h
  | cons l ls ih =>
    intro j x h
    cases j with
    | zero => rfl
    | succ m => simpa [appendAt] using ih m x (by simpa using h)

/-- one append of a shape-correct contribution to an integral that has
terms preserves the invariant -/
lemma Seeded_appendAt (ints : List Integral) (rv : List (List TypedColl)) (j : ℕ)
    (x : TypedColl) (h : Seeded ints rv) (hx : x.shape = (ints.getD j default).shape)
    (hterms : (ints.getD j default).terms ≠ []) : Seeded ints (appendAt rv j x) := by
  obtain ⟨hlen, hinv⟩ := h
  refine ⟨by rw [appendAt_length]; exact hlen, ?_⟩
  intro i hi
  by_cases hij : i = j
  · subst hij
    obtain ⟨tail, heq, hsh, _⟩ := hinv i hi
    have hjlen : i < rv.length := by rw [hlen]; exact hi
    refine ⟨tail ++ [x], ?_, ?_, fun he => absurd he hterms⟩
    · rw [appendAt_getD_eq rv i x hjlen, heq]
      rfl
    · intro c hc
      rcases List.mem_append.mp hc with hcm | hcm
      · exact hsh c hcm
      · rw [List.mem_singleton.mp hcm]
        exact hx
  · obtain ⟨tail, heq, hsh, hemp⟩ := hinv i hi
    exact ⟨tail, by rw [appendAt_getD_ne rv j x i hij]; exact heq, hsh, hemp⟩

/-- every obligation pair points into the integral list, at an integral that
has the paired sample among its terms -/
lemma integralPairsAux_mem : ∀ (ints : List Integral) (i0 : ℕ) (p : ℕ × ℕ),
    p ∈ integralPairsAux i0 ints →
      ∃ k, k < ints.length ∧ p.2 = i0 + k ∧
        p.1 ∈ (ints.getD k default).terms.map Prod.fst := by
  intro ints
  induction ints with
  | nil => intro i0 p h; simp [integralPairsAux] at h
  | cons I rest ih =>
    intro i0 p h
    simp only [integralPairsAux, List.mem_append] at h
    rcases h with h | h
    · obtain ⟨t, ht, hteq⟩ := List.mem_map.mp h
      subst hteq
      exact ⟨0, by simp, by simp, List.mem_map_of_mem _ ht⟩
    · obtain ⟨k, hk, hpk, hmem⟩ := ih (i0 + 1) p h
      refine ⟨k + 1, by simpa using hk, by omega, by simpa using hmem⟩

/-- a property of the pairs passes to the grouped pairs: one insertion -/
lemma addPair_mem (P : ℕ × ℕ → Prop) :
    ∀ (acc : List (ℕ × List ℕ)) (p : ℕ × ℕ),
      (∀ g ∈ acc, ∀ v ∈ g.2, P (g.1, v)) → P p →
      ∀ g ∈ addPair acc p, ∀ v ∈ g.2, P (g.1, v) := by
  intro acc
  induction acc with
  | nil =>
    intro p hacc hp g hg v hv
    simp only [addPair, List.mem_singleton] at hg
    subst hg
    simp only [List.mem_singleton] at hv
    subst hv
    rw [Prod.mk.eta]
    exact hp
  | cons g0 gs ih =>
    intro p hacc hp g hg v hv
    by_cases h : g0.1 = p.1
    · simp only [addPair, if_pos h, List.mem_cons] at hg
      rcases hg with hg | hg
      · subst hg
        rcases List.mem_append.mp hv with hvm | hvm
        · exact hacc g0 (List.mem_cons_self _ _) v hvm
        · rw [List.mem_singleton.mp hvm, h, Prod.mk.eta]
          exact hp
      · exact hacc g (List.mem_cons_of_mem _ hg) v hv
    · simp only [addPair, if_neg h, List.mem_cons] at hg
      rcases hg with hg | hg
      · subst hg
        exact hacc g (List.mem_cons_self _ _) v hv
      · exact ih p (fun g' hg' => hacc g' (List.mem_cons_of_mem _ hg')) hp g hg v hv

/-- a property of the pairs passes to the grouped pairs -/
lemma gather_fold_mem (P : ℕ × ℕ → Prop) :
    ∀ (ps : List (ℕ × ℕ)) (acc : List (ℕ × List ℕ)),
      (∀ p ∈ ps, P p) → (∀ g ∈ acc, ∀ v ∈ g.2, P (g.1, v)) →
      ∀ g ∈ ps.foldl addPair acc, ∀ v ∈ g.2, P (g.1, v) := by
  intro ps
  induction ps with
  | nil => intro acc _ hacc; exact hacc
  | cons p ps ih =>
    intro acc hps hacc
    rw [List.foldl_cons]
    exact ih _ (fun q hq => hps q (List.mem_cons_of_mem _ hq))
      (addPair_mem P acc p hacc (hps p (List.mem_cons_self _ _)))

/-- the inner per-sample fold preserves the invariant -/
lemma Seeded_innerFold (ints : List Integral) (sint : ℕ → ℤ → List ℕ → TypedColl)
    (hs : ∀ s f sh, (sint s f sh).shape = sh) (s : ℕ) :
    ∀ (iints : List ℕ) (rv : List (List TypedColl)),
      (∀ j ∈ iints, (ints.getD j default).terms ≠ []) → Seeded ints rv →
      Seeded ints (iints.foldl (fun rv2 iint =>
        appendAt rv2 iint (sint s (lookup0 (ints.getD iint default).terms s)
          (ints.getD iint default).shape)) rv) := by
  intro iints
  induction iints with
  | nil => intro rv _ h; exact h
  | cons j js ih =>
    intro rv hjs h
    rw [List.foldl_cons]
    refine ih _ (fun q hq => hjs q (List.mem_cons_of_mem _ hq)) ?_
    exact Seeded_appendAt ints rv j _ h (hs _ _ _) (hjs j (List.mem_cons_self _ _))

/-- the result lists of `eval_integrals_sparse` satisfy the invariant -/
lemma Seeded_evalLists (ints : List Integral) (sint : ℕ → ℤ → List ℕ → TypedColl)
    (hs : ∀ s f sh, (sint s f sh).shape = sh) :
    Seeded ints (evalLists ints sint) := by
  have hpairs : ∀ p ∈ integralPairs ints, (ints.getD p.2 default).terms ≠ [] := by
    intro p hp
    obtain ⟨k, hk, hpk, hmem⟩ := integralPairsAux_mem ints 0 p hp
    have hzk : p.2 = k := by omega
    rw [hzk]
    intro he
    rw [he] at hmem
    simp at hmem
  have hgs : ∀ g ∈ gather (integralPairs ints), ∀ v ∈ g.2,
      (ints.getD v default).terms ≠ [] :=
    gather_fold_mem (fun p => (ints.getD p.2 default).terms ≠ [])
      (integralPairs ints) [] hpairs (by simp)
  unfold evalLists gather
  have haux : ∀ (gs : List (ℕ × List ℕ)) (rv : List (List TypedColl)),
      (∀ g ∈ gs, ∀ v ∈ g.2, (ints.getD v default).terms ≠ []) → Seeded ints rv →
      Seeded ints (gs.foldl
        (fun rv g => g.2.foldl (fun rv2 iint =>
          appendAt rv2 iint (sint g.1 (lookup0 (ints.getD iint default).terms g.1)
            (ints.getD iint default).shape)) rv) rv) := by
    intro gs
    induction gs with
    | nil => intro rv _ h; exact h
    | cons g gs ih =>
      intro rv hgs2 h
      rw [List.foldl_cons]
      refine ih _ (fun q hq => hgs2 q (List.mem_cons_of_mem _ hq)) ?_
      exact Seeded_innerFold ints sint hs g.1 g.2 rv
        (fun j hj => hgs2 g (List.mem_cons_self _ _) j hj) h
  exact haux _ _ hgs (Seeded_init ints)

/-- `sparse.add` of a seeded list succeeds with the seed's shape -/
lemma add_seeded (sh : List ℕ) (tail : List TypedColl)
    (h : ∀ c ∈ tail, c.shape = sh) :
    sparse.add (sparse.empty sh :: tail) = .ok ⟨sh,
      (tail.map TypedColl.vtype).foldl VType.lub VType.tfloat,
      (sparse.empty sh :: tail).flatMap TypedColl.records⟩ := by
  have hany : (tail.any fun r => decide (r.shape ≠ (sparse.empty sh).shape)) = false := by
    rw [List.any_eq_false]
    intro r hr
    simp [sparse.empty, h r hr]
  simp only [sparse.add, hany, Bool.false_eq_true, if_false]
  rfl

/-- elementwise success of the adds means success of the comprehension -/
lemma mapAdd_ok : ∀ lists : List (List TypedColl),
    (∀ l ∈ lists, ∃ y, sparse.add l = .ok y) →
    ∃ ys, mapAdd lists = .ok ys ∧ ys.length = lists.length ∧
      ∀ i, i < lists.length → sparse.add (lists.getD i []) = .ok (ys.getD i default) := by
  intro lists
  induction lists with
  | nil => intro _; exact ⟨[], rfl, rfl, fun i hi => by simp at hi⟩
  | cons l ls ih =>
    intro h
    obtain ⟨y, hy⟩ := h l (List.mem_cons_self _ _)
    obtain ⟨ys, hys, hlen, hcomp⟩ := ih (fun l2 hl2 => h l2 (List.mem_cons_of_mem _ hl2))
    refine ⟨y :: ys, ?_, by simp [hlen], ?_⟩
    · simp only [mapAdd, hy, hys]
    · intro i hi
      cases i with
      | zero => simpa using hy
      | succ n => simpa using hcomp n (by simpa using hi)

/-- C10: for every tuple of Integrals, `eval_integrals_sparse` produces
exactly one sparse result per input Integral; every per-integral result
list is seeded with an empty sparse collection of the Integral's declared
shape before any per-sample contribution is appended, so the final
`sparse.add` succeeds and each result has the declared shape — in
particular an Integral whose term map is empty still evaluates to the
well-formed empty sparse collection of its declared shape. -/
theorem eval_integrals_sparse_C10 (ints : List Integral)
    (sint : ℕ → ℤ → List ℕ → TypedColl)
    (hs : ∀ s f sh, (sint s f sh).shape = sh) :
    (evalLists ints sint).length = ints.length ∧
    (∀ i, i < ints.length → ∃ tail,
      (evalLists ints sint).getD i [] = sparse.empty (ints.getD i default).shape :: tail) ∧
    ∃ results, evalIntegralsSparse ints sint = .ok results ∧
      results.length = ints.length ∧
      (∀ i, i < ints.length →
        (results.getD i default).shape = (ints.getD i default).shape) ∧
      (∀ i, i < ints.length → (ints.getD i default).terms = [] →
        results.getD i default = sparse.empty (ints.getD i default).shape) := by
  obtain ⟨hlen, hinv⟩ := Seeded_evalLists ints sint hs
  refine ⟨hlen, fun i hi => ⟨(hinv i hi).choose, (hinv i hi).choose_spec.1⟩, ?_⟩
  have hall : ∀ l ∈ evalLists ints sint, ∃ y, sparse.add l = .ok y := by
    intro l hl
    obtain ⟨n, hget⟩ := List.mem_iff_get.mp hl
    have hi : n.1 < ints.length := by rw [← hlen]; exact n.2
    obtain ⟨tail, heq, hsh, _⟩ := hinv n.1 hi
    have hleq : l = sparse.empty (ints.getD n.1 default).shape :: tail := by
      calc l = (evalLists ints sint).get n := hget.symm
        _ = (evalLists ints sint).getD n.1 [] := by
            rw [List.getD_eq_getElem (evalLists ints sint) [] n.2, List.get_eq_getElem]
        _ = _ := heq
    rw [hleq]
    exact ⟨_, add_seeded _ tail hsh⟩
  obtain ⟨ys, hys, hyslen, hcomp⟩ := mapAdd_ok (evalLists ints sint) hall
  refine ⟨ys, hys, by rw [hyslen, hlen], ?_, ?_⟩
  · intro i hi
    obtain ⟨tail, heq, hsh, _⟩ := hinv i hi
    have hilen : i < (evalLists ints sint).length := by rw [hlen]; exact hi
    have hc := hcomp i hilen
    rw [heq, add_seeded _ tail hsh] at hc
    rw [← Except.ok.inj hc]
  · intro i hi hterms
    obtain ⟨tail, heq, hsh, hemp⟩ := hinv i hi
    have htail : tail = [] := hemp hterms
    subst htail
    have hilen : i < (evalLists ints sint).length := by rw [hlen]; exact hi
    have hc := hcomp i hilen
    rw [heq, add_seeded _ [] (by simp)] at hc
    rw [← Except.ok.inj hc]
    rfl

/-- the integral batch of the C10 witness: one integral with a term at
sample 5, one with an empty term map -/
def evalInts0 : List Integral := [⟨[2], [(5, 3)]⟩, ⟨[3], []⟩]

/-- the per-integrand integration stub of the C10 witness, returning one
record of the requested shape -/
def evalSint0 : ℕ → ℤ → List ℕ → TypedColl := fun _ f sh => ⟨sh, .tint, [([0], (f : ℚ))]⟩

/-- witness for C10 on a two-integral batch: two result lists, the second —
whose integral has no terms — still the bare seed, and evaluation succeeds
with the empty collection of declared shape `[3]` in position 1 -/
theorem eval_integrals_sparse_C10_witness :
    (evalLists evalInts0 evalSint0).length = 2 ∧
    (∃ tail, (evalLists evalInts0 evalSint0).getD 1 []
      = sparse.empty [3] :: tail) ∧
    ∃ results, evalIntegralsSparse evalInts0 evalSint0 = .ok results ∧
      results.length = 2 ∧ results.getD 1 default = sparse.empty [3] := by
  have H := eval_integrals_sparse_C10 evalInts0 evalSint0 (fun _ _ _ => rfl)
  refine ⟨H.1, H.2.1 1 (by decide), ?_⟩
  obtain ⟨results, h1, h2, _, h4⟩ := H.2.2
  exact ⟨results, h1, h2, h4 1 (by decide) rfl⟩

end NutilsModel
